import Mathlib

/-!
Shallow embedding of the mimir-llm peer-to-peer client
(source file src/shared/mimir/index.ts) and proofs about it.

Conventions used throughout:
- Byte strings are modelled as `List Nat`, one element per byte.
- The wire text produced by the platform routines JSON.stringify /
  JSON.parse is modelled at the byte level by an executable serializer and
  parser over a JSON value type whose strings and object keys are byte
  lists (the UTF-8 bytes of the corresponding JS strings) and whose
  numbers are integers.
- The it-length-prefixed library writes, for each payload, the unsigned
  varint (multiformats) of the payload byte length followed by the payload
  bytes; its decoder is modelled as a byte-at-a-time state machine that
  buffers bytes and emits a frame exactly when the frame's last byte has
  been consumed.
- Peer identities are opaque values supplied by the substrate; they are
  modelled as `Nat`, with `equals` as equality.  Content identifiers are
  carried in their string form (byte list): CID.parse and toString
  round-trip by the multiformats contract, so both are the identity here.
-/

namespace Mimir

/-- Unsigned varint encoding (multiformats), as written by lp.encode for
the byte length of each frame.  Fuel-based so that it is kernel
evaluable; fuel `n` always suffices because the value shrinks by a factor
of 128 every step (at fuel 0 the only reachable value is `n = 0`). -/
def varintAux : Nat → Nat → List Nat
  | 0, n => [n % 128]
  | f + 1, n => if n < 128 then [n] else (n % 128 + 128) :: varintAux f (n / 128)

def varintEncode (n : Nat) : List Nat := varintAux n n

/-- State of the lp.decode framing machine: either reading the varint
length (with the accumulated value and current bit shift) or reading the
`remaining` bytes of the current frame body (with the body bytes read so
far). -/
inductive DecState where
  | len (acc sh : Nat)
  | dat (remaining : Nat) (acc : List Nat)

/-- Consume one byte, emitting any completed frame. -/
def lpStep : DecState → Nat → DecState × List (List Nat)
  | .len acc sh, b =>
    if b < 128 then
      if acc + b * 2 ^ sh = 0 then (.len 0 0, [[]])
      else (.dat (acc + b * 2 ^ sh) [], [])
    else (.len (acc + (b - 128) * 2 ^ sh) (sh + 7), [])
  | .dat r acc, b =>
    if r ≤ 1 then (.len 0 0, [acc ++ [b]])
    else (.dat (r - 1) (acc ++ [b]), [])

/-- Run the framing machine over a byte sequence. -/
def lpRun : DecState → List Nat → DecState × List (List Nat)
  | s, [] => (s, [])
  | s, b :: bs =>
    let p := lpStep s b
    let q := lpRun p.1 bs
    (q.1, p.2 ++ q.2)

/-- Frames produced by lp.decode on a byte sequence. -/
def lpDecode (bytes : List Nat) : List (List Nat) := (lpRun (.len 0 0) bytes).2

/-- Run the framing machine over a sequence of delivered chunks, as
lp.decode does on a chunked stream. -/
def lpRunChunks : DecState → List (List Nat) → DecState × List (List Nat)
  | s, [] => (s, [])
  | s, c :: cs =>
    let p := lpRun s c
    let q := lpRunChunks p.1 cs
    (q.1, p.2 ++ q.2)

/-- The bytes lp.encode writes for one payload: varint of the byte
length, then the payload. -/
def frameEnc (payload : List Nat) : List Nat :=
  varintEncode payload.length ++ payload

theorem lpRun_cons (s : DecState) (b : Nat) (bs : List Nat) :
    lpRun s (b :: bs) =
      ((lpRun (lpStep s b).1 bs).1, (lpStep s b).2 ++ (lpRun (lpStep s b).1 bs).2) := rfl

theorem lpRun_append (xs : List Nat) : ∀ (s : DecState) (ys : List Nat),
    lpRun s (xs ++ ys) =
      ((lpRun (lpRun s xs).1 ys).1, (lpRun s xs).2 ++ (lpRun (lpRun s xs).1 ys).2) := by
  induction xs with
  | nil => intro s ys; simp [lpRun]
  | cons b bs ih => intro s ys; simp [lpRun, ih, List.append_assoc]

theorem lpRunChunks_eq_join (cs : List (List Nat)) : ∀ s : DecState,
    lpRunChunks s cs = lpRun s cs.flatten := by
  induction cs with
  | nil => intro s; rfl
  | cons c cs ih => intro s; simp [lpRunChunks, List.flatten, lpRun_append, ih]

theorem lpRun_varint : ∀ (f n acc sh : Nat) (rest : List Nat), n ≤ f →
    0 < acc + n * 2 ^ sh →
    lpRun (.len acc sh) (varintAux f n ++ rest) =
      lpRun (.dat (acc + n * 2 ^ sh) []) rest := by
  intro f
  induction f with
  | zero =>
    intro n acc sh rest hn hpos
    have hn0 : n = 0 := by omega
    subst hn0
    simp only [Nat.zero_mul, Nat.add_zero] at hpos
    have hstep : lpStep (.len acc sh) (0 % 128) = (.dat (acc + 0 * 2 ^ sh) [], []) := by
      have hacc : ¬ acc = 0 := by omega
      simp [lpStep, hacc]
    show lpRun (.len acc sh) ((0 % 128 :: []) ++ rest) = lpRun (.dat (acc + 0 * 2 ^ sh) []) rest
    rw [List.cons_append, List.nil_append, lpRun_cons, hstep]
    simp
  | succ f ih =>
    intro n acc sh rest hn hpos
    by_cases h : n < 128
    · have hne : ¬ acc + n * 2 ^ sh = 0 := by omega
      have hstep : lpStep (.len acc sh) n = (.dat (acc + n * 2 ^ sh) [], []) := by
        simp [lpStep, h, hne]
      rw [show varintAux (f + 1) n = [n] by simp [varintAux, h]]
      rw [List.cons_append, List.nil_append, lpRun_cons, hstep]
      simp
    · have hb : ¬ n % 128 + 128 < 128 := by omega
      have hdiv : n / 128 ≤ f := by
        have : n / 128 < n := Nat.div_lt_self (by omega) (by omega)
        omega
      have hkey : acc + n % 128 * 2 ^ sh + n / 128 * 2 ^ (sh + 7) = acc + n * 2 ^ sh := by
        have h2 : (2:Nat) ^ (sh + 7) = 2 ^ sh * 128 := by rw [pow_add]; norm_num
        have h3 : n % 128 + n / 128 * 128 = n := Nat.mod_add_div' n 128
        calc acc + n % 128 * 2 ^ sh + n / 128 * 2 ^ (sh + 7)
            = acc + (n % 128 + n / 128 * 128) * 2 ^ sh := by rw [h2]; ring
          _ = acc + n * 2 ^ sh := by rw [h3]
      have hpos2 : 0 < acc + n % 128 * 2 ^ sh + n / 128 * 2 ^ (sh + 7) := by
        rw [hkey]; exact hpos
      have hstep : lpStep (.len acc sh) (n % 128 + 128)
          = (.len (acc + n % 128 * 2 ^ sh) (sh + 7), []) := by
        have hsub : n % 128 + 128 - 128 = n % 128 := by omega
        simp [lpStep, hb, hsub]
      rw [show varintAux (f + 1) n = (n % 128 + 128) :: varintAux f (n / 128) by
        simp [varintAux, h]]
      rw [List.cons_append, lpRun_cons, hstep]
      rw [ih (n / 128) (acc + n % 128 * 2 ^ sh) (sh + 7) rest hdiv hpos2, hkey]
      simp

theorem lpRun_dat : ∀ (bytes : List Nat) (r : Nat) (acc rest : List Nat),
    bytes.length = r → 0 < r →
    lpRun (.dat r acc) (bytes ++ rest) =
      ((lpRun (.len 0 0) rest).1, (acc ++ bytes) :: (lpRun (.len 0 0) rest).2) := by
  intro bytes
  induction bytes with
  | nil => intro r acc rest hlen hpos; simp at hlen; omega
  | cons b bs ih =>
    intro r acc rest hlen hpos
    cases bs with
    | nil =>
      have hr : r = 1 := by simpa using hlen.symm
      subst hr
      have hstep : lpStep (.dat 1 acc) b = (.len 0 0, [acc ++ [b]]) := by
        simp [lpStep]
      rw [show ([b] ++ rest) = b :: rest by simp, lpRun_cons, hstep]
      simp
    | cons c cs =>
      have hr : r = cs.length + 2 := by simpa using hlen.symm
      have hgt : ¬ r ≤ 1 := by omega
      have hstep : lpStep (.dat r acc) b = (.dat (r - 1) (acc ++ [b]), []) := by
        simp [lpStep, hgt]
      rw [List.cons_append, lpRun_cons, hstep]
      rw [show r - 1 = (c :: cs).length by simp; omega]
      rw [ih ((c :: cs).length) (acc ++ [b]) rest rfl (by simp)]
      simp

theorem lpRun_frame (pl rest : List Nat) (h : 0 < pl.length) :
    lpRun (.len 0 0) (frameEnc pl ++ rest) =
      ((lpRun (.len 0 0) rest).1, pl :: (lpRun (.len 0 0) rest).2) := by
  unfold frameEnc varintEncode
  rw [List.append_assoc,
    lpRun_varint pl.length pl.length 0 0 (pl ++ rest) (le_refl _) (by simpa using h)]
  have : (0 : Nat) + pl.length * 2 ^ 0 = pl.length := by simp
  rw [this, lpRun_dat pl pl.length [] rest rfl h]
  simp

theorem lpDecode_frames : ∀ pls : List (List Nat), (∀ p ∈ pls, p ≠ []) →
    lpRun (.len 0 0) (pls.map frameEnc).flatten = (.len 0 0, pls) := by
  intro pls
  induction pls with
  | nil => intro _; rfl
  | cons p ps ih =>
    intro h
    have hp : 0 < p.length := List.length_pos.mpr (h p (by simp))
    simp only [List.map_cons, List.flatten_cons]
    rw [lpRun_frame p (List.map frameEnc ps).flatten hp,
      ih (fun q hq => h q (by simp [hq]))]

theorem lpRun_cont : ∀ (p : List Nat) (acc sh : Nat), (∀ b ∈ p, 128 ≤ b) →
    ∃ a2 s2, lpRun (.len acc sh) p = (.len a2 s2, []) := by
  intro p
  induction p with
  | nil => intro acc sh _; exact ⟨acc, sh, rfl⟩
  | cons b bs ih =>
    intro acc sh h
    have hb : ¬ b < 128 := by
      have := h b (by simp)
      omega
    obtain ⟨a2, s2, hrun⟩ := ih (acc + (b - 128) * 2 ^ sh) (sh + 7)
      (fun x hx => h x (by simp [hx]))
    exact ⟨a2, s2, by simp [lpRun, lpStep, hb, hrun]⟩

theorem varintAux_split : ∀ f n, n ≤ f →
    ∃ ini last, varintAux f n = ini ++ [last] ∧ (∀ b ∈ ini, 128 ≤ b) ∧ last < 128 := by
  intro f
  induction f with
  | zero =>
    intro n hn
    have : n = 0 := by omega
    subst this
    exact ⟨[], 0, by simp [varintAux], by simp, by omega⟩
  | succ f ih =>
    intro n hn
    by_cases h : n < 128
    · exact ⟨[], n, by simp [varintAux, h], by simp, h⟩
    · have hdiv : n / 128 ≤ f := by
        have : n / 128 < n := Nat.div_lt_self (by omega) (by omega)
        omega
      obtain ⟨ini, last, heq, hini, hlast⟩ := ih (n / 128) hdiv
      refine ⟨(n % 128 + 128) :: ini, last, by simp [varintAux, h, heq], ?_, hlast⟩
      intro b hb
      rcases List.mem_cons.mp hb with h1 | h2
      · omega
      · exact hini b h2

theorem pref_split : ∀ (a p b : List Nat), p <+: a ++ b →
    p <+: a ∨ ∃ q, p = a ++ q ∧ q <+: b := by
  intro a
  induction a with
  | nil =>
    intro p b h
    right
    exact ⟨p, by simp, by simpa using h⟩
  | cons x xs ih =>
    intro p b h
    cases p with
    | nil => left; exact ⟨x :: xs, rfl⟩
    | cons y ys =>
      obtain ⟨t, ht⟩ := h
      simp only [List.cons_append] at ht
      have hy : y = x := by injection ht
      have hrest : ys ++ t = xs ++ b := by injection ht
      subst hy
      rcases ih ys b ⟨t, hrest⟩ with h1 | ⟨q, hq1, hq2⟩
      · left
        obtain ⟨u, hu⟩ := h1
        exact ⟨u, by simp [← hu]⟩
      · right
        exact ⟨q, by simp [hq1], hq2⟩

theorem lpRun_dat_short : ∀ (q : List Nat) (r : Nat) (acc : List Nat), q.length < r →
    ∃ r2 a2, lpRun (.dat r acc) q = (.dat r2 a2, []) := by
  intro q
  induction q with
  | nil => intro r acc _; exact ⟨r, acc, rfl⟩
  | cons b bs ih =>
    intro r acc h
    have hgt : ¬ r ≤ 1 := by simp at h; omega
    obtain ⟨r2, a2, hrun⟩ := ih (r - 1) (acc ++ [b]) (by simp at h ⊢; omega)
    exact ⟨r2, a2, by simp [lpRun, lpStep, hgt, hrun]⟩

theorem sgl_pref : ∀ (q : List Nat) (x : Nat), q <+: [x] → q = [] ∨ q = [x] := by
  intro q x h
  obtain ⟨t, ht⟩ := h
  cases q with
  | nil => left; rfl
  | cons y ys =>
    right
    simp only [List.cons_append] at ht
    have hy : y = x := by injection ht
    have : ys ++ t = [] := by injection ht
    have hys : ys = [] := by
      cases ys with
      | nil => rfl
      | cons _ _ => simp at this
    simp [hy, hys]

theorem lpOut_frame_incomplete (pl p : List Nat) (hp : p <+: frameEnc pl)
    (hne : p ≠ frameEnc pl) (hlen : 0 < pl.length) :
    (lpRun (.len 0 0) p).2 = [] := by
  unfold frameEnc at hp hne
  rcases pref_split (varintEncode pl.length) p pl hp with hc | ⟨q, hq1, hq2⟩
  · -- p lies inside the varint header
    obtain ⟨ini, last, hsplit, hini, hlast⟩ :=
      varintAux_split pl.length pl.length (le_refl _)
    rw [show varintEncode pl.length = ini ++ [last] from hsplit] at hc
    rcases pref_split ini p [last] hc with hc2 | ⟨q2, hq21, hq22⟩
    · -- p is a run of continuation bytes
      obtain ⟨t, htp⟩ := hc2
      obtain ⟨a2, s2, hrun⟩ := lpRun_cont p 0 0
        (fun b hb => hini b (by rw [← htp]; exact List.mem_append_left t hb))
      simp [hrun]
    · rcases sgl_pref q2 last hq22 with h0 | h1
      · -- p is exactly the continuation bytes
        obtain ⟨a2, s2, hrun⟩ := lpRun_cont p 0 0
          (fun b hb => hini b (by rw [hq21, h0, List.append_nil] at hb; exact hb))
        simp [hrun]
      · -- p is the whole varint header: the machine moves to the body
        -- state without emitting anything
        rw [hq21, h1, ← hsplit]
        have hv := lpRun_varint pl.length pl.length 0 0 [] (le_refl _) (by simpa using hlen)
        rw [show varintAux pl.length pl.length
            = varintAux pl.length pl.length ++ [] by simp]
        rw [hv]
        rfl
  · -- p is the varint plus a strict portion of the body
    have hqne : q ≠ pl := by
      intro hcontra
      exact hne (by rw [hq1, hcontra])
    obtain ⟨t, hqt⟩ := hq2
    have hqlt : q.length < pl.length := by
      have hlen2 : q.length + t.length = pl.length := by
        rw [← hqt]; simp
      cases t with
      | nil => exact absurd (by simpa using hqt) hqne
      | cons _ _ => simp at hlen2; omega
    rw [hq1, show varintEncode pl.length = varintAux pl.length pl.length from rfl,
      lpRun_varint pl.length pl.length 0 0 q (le_refl _) (by simpa using hlen)]
    obtain ⟨r2, a2, hrun⟩ := lpRun_dat_short q (0 + pl.length * 2 ^ 0) []
      (by simpa using hqlt)
    rw [hrun]

theorem lpOut_two_frames (a b p : List Nat) (ha : 0 < a.length) (hb : 0 < b.length)
    (hp : p <+: frameEnc a ++ frameEnc b) :
    (lpRun (.len 0 0) p).2 =
      if p.length < (frameEnc a).length then []
      else if p.length < (frameEnc a).length + (frameEnc b).length then [a]
      else [a, b] := by
  have hfb : 0 < (frameEnc b).length := by
    unfold frameEnc
    rw [List.length_append]
    omega
  rcases pref_split (frameEnc a) p (frameEnc b) hp with hc | ⟨q, hq1, hq2⟩
  · by_cases heq : p = frameEnc a
    · subst heq
      rw [if_neg (by omega), if_pos (by omega)]
      have hf := lpRun_frame a [] ha
      rw [List.append_nil] at hf
      rw [hf]
      simp [lpRun]
    · have hlt : p.length < (frameEnc a).length := by
        obtain ⟨t, htp⟩ := hc
        have : p.length + t.length = (frameEnc a).length := by rw [← htp]; simp
        cases t with
        | nil => exact absurd (by simpa using htp) heq
        | cons _ _ => simp at this; omega
      rw [if_pos hlt]
      exact lpOut_frame_incomplete a p hc heq ha
  · subst hq1
    rw [List.length_append]
    have hf := lpRun_frame a q ha
    by_cases heq : q = frameEnc b
    · subst heq
      rw [if_neg (by omega), if_neg (by omega)]
      have hf2 := lpRun_frame b [] hb
      rw [List.append_nil] at hf2
      rw [hf, hf2]
      simp [lpRun]
    · have hqlt : q.length < (frameEnc b).length := by
        obtain ⟨t, hqt⟩ := hq2
        have : q.length + t.length = (frameEnc b).length := by rw [← hqt]; simp
        cases t with
        | nil => exact absurd (by simpa using hqt) heq
        | cons _ _ => simp at this; omega
      rw [if_neg (by omega), if_pos (by omega)]
      rw [hf]
      have hempty : (lpRun (.len 0 0) q).2 = [] :=
        lpOut_frame_incomplete b q hq2 heq hb
      simp [hempty]

/-! JSON values, as produced by JSON.parse and consumed by JSON.stringify.
Strings and object keys carry the bytes of the JS string; numbers are
modelled as integers (the packets exchanged by the protocol carry no
fractional numbers); object member order is the JS insertion order. -/

mutual

inductive Json where
  | null : Json
  | bool (b : Bool) : Json
  | num (n : Int) : Json
  | str (s : List Nat) : Json
  | arr (elems : JsonArr) : Json
  | obj (membs : JsonObj) : Json

inductive JsonArr where
  | nil : JsonArr
  | cons (hd : Json) (tl : JsonArr) : JsonArr

inductive JsonObj where
  | nil : JsonObj
  | cons (key : List Nat) (val : Json) (tl : JsonObj) : JsonObj

end

def isDigitB (b : Nat) : Bool := decide (48 ≤ b ∧ b ≤ 57)

def hexDig (d : Nat) : Nat := if d < 10 then d + 48 else d + 87

def hexVal (h : Nat) : Option Nat :=
  if 48 ≤ h ∧ h ≤ 57 then some (h - 48)
  else if 97 ≤ h ∧ h ≤ 102 then some (h - 87)
  else none

/-- How JSON.stringify renders one byte of string content: quote and
backslash are escaped, control bytes become a \u00XX escape, everything
else is copied verbatim. -/
def escByte (b : Nat) : List Nat :=
  if b = 34 then [92, 34]
  else if b = 92 then [92, 92]
  else if b < 32 then [92, 117, 48, 48, hexDig (b / 16), hexDig (b % 16)]
  else [b]

/-- Rendered content of a string, including the closing quote. -/
def serStrBody : List Nat → List Nat
  | [] => [34]
  | b :: r => escByte b ++ serStrBody r

/-- Decimal digits of a natural number, most significant first.
Fuel-based for kernel evaluability; fuel `n` always suffices. -/
def natDigitsAux : Nat → Nat → List Nat
  | 0, n => [n % 10]
  | f + 1, n => if n < 10 then [n] else natDigitsAux f (n / 10) ++ [n % 10]

def natDigits (n : Nat) : List Nat := natDigitsAux n n

def digitBytes (n : Nat) : List Nat := (natDigits n).map (fun d => d + 48)

def serNum (i : Int) : List Nat :=
  if i < 0 then 45 :: digitBytes i.natAbs else digitBytes i.natAbs

mutual

/-- The bytes JSON.stringify produces for a JSON value. -/
def serJ : Json → List Nat
  | .null => [110, 117, 108, 108]
  | .bool true => [116, 114, 117, 101]
  | .bool false => [102, 97, 108, 115, 101]
  | .num i => serNum i
  | .str s => 34 :: serStrBody s
  | .arr .nil => [91, 93]
  | .arr (.cons x t) => 91 :: (serJ x ++ (serATail t ++ [93]))
  | .obj .nil => [123, 125]
  | .obj (.cons k v t) =>
    123 :: ((34 :: (serStrBody k ++ (58 :: serJ v))) ++ (serOTail t ++ [125]))

def serATail : JsonArr → List Nat
  | .nil => []
  | .cons x t => 44 :: (serJ x ++ serATail t)

def serOTail : JsonObj → List Nat
  | .nil => []
  | .cons k v t => 44 :: ((34 :: (serStrBody k ++ (58 :: serJ v))) ++ serOTail t)

end

/-- The rendered form of one object member. -/
def serMemb (k : List Nat) (v : Json) : List Nat :=
  34 :: (serStrBody k ++ (58 :: serJ v))

theorem serJ_obj_cons (k : List Nat) (v : Json) (t : JsonObj) :
    serJ (.obj (.cons k v t)) = 123 :: (serMemb k v ++ (serOTail t ++ [125])) := rfl

theorem serOTail_cons (k : List Nat) (v : Json) (t : JsonObj) :
    serOTail (.cons k v t) = 44 :: (serMemb k v ++ serOTail t) := rfl

/-! The byte-level model of JSON.parse: a recursive-descent parser over
the bytes of the JSON text.  Parsing of values, array items and object
members is fuel-bounded (every recursive step consumes one unit, so any
fuel at least the size of the value suffices). -/

def takeDigits : List Nat → List Nat × List Nat
  | [] => ([], [])
  | b :: r =>
    if isDigitB b then
      let p := takeDigits r
      (b :: p.1, p.2)
    else ([], b :: r)

def digitsVal (ds : List Nat) : Nat :=
  ds.foldl (fun a b => 10 * a + (b - 48)) 0

def parseNumPos (bs : List Nat) : Option (Nat × List Nat) :=
  let p := takeDigits bs
  if p.1 = [] then none else some (digitsVal p.1, p.2)

mutual

def parseStr : List Nat → Option (List Nat × List Nat)
  | [] => none
  | b :: r =>
    if b = 34 then some ([], r)
    else if b = 92 then parseStrEsc r
    else (parseStr r).map (fun p => (b :: p.1, p.2))

def parseStrEsc : List Nat → Option (List Nat × List Nat)
  | 34 :: r2 => (parseStr r2).map (fun p => (34 :: p.1, p.2))
  | 92 :: r2 => (parseStr r2).map (fun p => (92 :: p.1, p.2))
  | 117 :: 48 :: 48 :: h1 :: h2 :: r2 =>
    match hexVal h1, hexVal h2 with
    | some v1, some v2 => (parseStr r2).map (fun p => ((16 * v1 + v2) :: p.1, p.2))
    | _, _ => none
  | _ => none

end

mutual

def parseVal : Nat → List Nat → Option (Json × List Nat)
  | 0, _ => none
  | _ + 1, [] => none
  | f + 1, b :: r =>
    if b = 110 then
      if r.take 3 = [117, 108, 108] then some (.null, r.drop 3) else none
    else if b = 116 then
      if r.take 3 = [114, 117, 101] then some (.bool true, r.drop 3) else none
    else if b = 102 then
      if r.take 4 = [97, 108, 115, 101] then some (.bool false, r.drop 4) else none
    else if b = 34 then (parseStr r).map (fun p => (.str p.1, p.2))
    else if b = 91 then
      if r.head? = some 93 then some (.arr .nil, r.tail)
      else (parseItems f r).map (fun p => (.arr p.1, p.2))
    else if b = 123 then
      if r.head? = some 125 then some (.obj .nil, r.tail)
      else (parseMembs f r).map (fun p => (.obj p.1, p.2))
    else if b = 45 then (parseNumPos r).map (fun p => (.num (-(p.1 : Int)), p.2))
    else if isDigitB b then
      (parseNumPos (b :: r)).map (fun p => (.num ((p.1 : Int)), p.2))
    else none

def parseItems : Nat → List Nat → Option (JsonArr × List Nat)
  | 0, _ => none
  | f + 1, bs =>
    match parseVal f bs with
    | some (j, r) =>
      match r with
      | 44 :: r2 => (parseItems f r2).map (fun p => (.cons j p.1, p.2))
      | 93 :: r2 => some (.cons j .nil, r2)
      | _ => none
    | none => none

def parseMembs : Nat → List Nat → Option (JsonObj × List Nat)
  | 0, _ => none
  | f + 1, bs =>
    if bs.head? = some 34 then
      match parseStr bs.tail with
      | some (k, r1) =>
        match r1 with
        | 58 :: r2 =>
          match parseVal f r2 with
          | some (v, r3) =>
            match r3 with
            | 44 :: r4 => (parseMembs f r4).map (fun p => (.cons k v p.1, p.2))
            | 125 :: r4 => some (.cons k v .nil, r4)
            | _ => none
          | none => none
        | _ => none
      | none => none
    else none

end

/-! Sizes for the fuel bound. -/

mutual

def sizeJ : Json → Nat
  | .null => 1
  | .bool _ => 1
  | .num _ => 1
  | .str _ => 1
  | .arr l => 1 + sizeA l
  | .obj m => 1 + sizeO m

def sizeA : JsonArr → Nat
  | .nil => 0
  | .cons x t => 1 + sizeJ x + sizeA t

def sizeO : JsonObj → Nat
  | .nil => 0
  | .cons _ v t => 1 + sizeJ v + sizeO t

end

deriving instance DecidableEq for Json, JsonArr, JsonObj

/-- True when the byte sequence does not begin with a decimal digit, so a
number directly in front of it parses without absorbing anything. -/
def noDigitHead : List Nat → Bool
  | [] => true
  | b :: _ => !(isDigitB b)

theorem natDigitsAux_lt_10 : ∀ f n, n ≤ f → ∀ d ∈ natDigitsAux f n, d < 10 := by
  intro f
  induction f with
  | zero =>
    intro n hn d hd
    have : n = 0 := by omega
    subst this
    simp [natDigitsAux] at hd
    omega
  | succ f ih =>
    intro n hn d hd
    by_cases h : n < 10
    · simp [natDigitsAux, h] at hd
      omega
    · simp only [natDigitsAux, h, if_false, List.mem_append, List.mem_singleton] at hd
      rcases hd with h1 | h2
      · exact ih (n / 10) (by
          have : n / 10 < n := Nat.div_lt_self (by omega) (by omega)
          omega) d h1
      · subst h2
        exact Nat.mod_lt n (by omega)

theorem natDigitsAux_ne_nil : ∀ f n, natDigitsAux f n ≠ [] := by
  intro f n
  cases f with
  | zero => simp [natDigitsAux]
  | succ f =>
    by_cases h : n < 10 <;> simp [natDigitsAux, h]

theorem natDigitsAux_foldl : ∀ f n a, n ≤ f →
    (natDigitsAux f n).foldl (fun acc d => 10 * acc + d) a
      = a * 10 ^ (natDigitsAux f n).length + n := by
  intro f
  induction f with
  | zero =>
    intro n a hn
    have : n = 0 := by omega
    subst this
    simp [natDigitsAux]
    ring
  | succ f ih =>
    intro n a hn
    by_cases h : n < 10
    · simp [natDigitsAux, h]
      ring
    · have hdiv : n / 10 ≤ f := by
        have : n / 10 < n := Nat.div_lt_self (by omega) (by omega)
        omega
      simp only [natDigitsAux, h, if_false, List.foldl_append, List.length_append,
        List.foldl_cons, List.foldl_nil, List.length_cons, List.length_nil]
      rw [ih (n / 10) a hdiv]
      have hm : 10 * (n / 10) + n % 10 = n := Nat.div_add_mod n 10
      have hp : (10:Nat) ^ ((natDigitsAux f (n / 10)).length + (0 + 1))
          = 10 ^ (natDigitsAux f (n / 10)).length * 10 := by
        rw [pow_add]
        norm_num
      rw [hp]
      ring_nf
      omega

theorem digitBytes_digits (n : Nat) : ∀ b ∈ digitBytes n, isDigitB b = true := by
  intro b hb
  simp only [digitBytes, natDigits, List.mem_map] at hb
  obtain ⟨d, hd, rfl⟩ := hb
  have := natDigitsAux_lt_10 n n (le_refl _) d hd
  simp [isDigitB]
  omega

theorem digitBytes_ne_nil (n : Nat) : digitBytes n ≠ [] := by
  simp only [digitBytes, natDigits]
  intro h
  exact natDigitsAux_ne_nil n n (List.map_eq_nil_iff.mp h)

theorem digitsVal_digitBytes (n : Nat) : digitsVal (digitBytes n) = n := by
  simp only [digitsVal, digitBytes, natDigits, List.foldl_map]
  have : (fun (a : Nat) (d : Nat) => 10 * a + (d + 48 - 48))
      = (fun (a : Nat) (d : Nat) => 10 * a + d) := by
    funext a d
    omega
  rw [this, natDigitsAux_foldl n n 0 (le_refl _)]
  simp

theorem takeDigits_spec : ∀ ds rest, (∀ d ∈ ds, isDigitB d = true) →
    noDigitHead rest = true → takeDigits (ds ++ rest) = (ds, rest) := by
  intro ds
  induction ds with
  | nil =>
    intro rest _ hrest
    cases rest with
    | nil => rfl
    | cons b r =>
      simp only [noDigitHead, Bool.not_eq_true'] at hrest
      simp [takeDigits, hrest]
  | cons d ds ih =>
    intro rest hds hrest
    have hd : isDigitB d = true := hds d (by simp)
    simp only [List.cons_append, takeDigits, hd, if_true, List.append_eq]
    rw [ih rest (fun x hx => hds x (by simp [hx])) hrest]

theorem parseNumPos_spec (n : Nat) (rest : List Nat) (hrest : noDigitHead rest = true) :
    parseNumPos (digitBytes n ++ rest) = some (n, rest) := by
  simp only [parseNumPos, takeDigits_spec (digitBytes n) rest (digitBytes_digits n) hrest]
  simp [digitBytes_ne_nil n, digitsVal_digitBytes n]

theorem parseStr_plain (b : Nat) (r : List Nat) (h34 : ¬ b = 34) (h92 : ¬ b = 92) :
    parseStr (b :: r) = (parseStr r).map (fun p => (b :: p.1, p.2)) := by
  rw [parseStr]
  simp [h34, h92]

theorem parseStr_ser : ∀ s rest, parseStr (serStrBody s ++ rest) = some (s, rest) := by
  intro s
  induction s with
  | nil => intro rest; rfl
  | cons b bs ih =>
    intro rest
    simp only [serStrBody, List.append_assoc]
    by_cases h34 : b = 34
    · subst h34
      simp [escByte, parseStr, parseStrEsc, ih rest]
    · by_cases h92 : b = 92
      · subst h92
        simp [escByte, parseStr, parseStrEsc, ih rest]
      · by_cases hc : b < 32
        · have hdiv : b / 16 < 10 := by omega
          have hv1 : hexVal (hexDig (b / 16)) = some (b / 16) := by
            simp only [hexDig, hdiv, if_true, hexVal]
            rw [if_pos (by omega)]
            simp
          have hv2 : hexVal (hexDig (b % 16)) = some (b % 16) := by
            have hm : b % 16 < 16 := Nat.mod_lt b (by omega)
            by_cases hm10 : b % 16 < 10
            · simp only [hexDig, hm10, if_true, hexVal]
              rw [if_pos (by omega)]
              simp
            · simp only [hexDig, hm10, if_false, hexVal]
              rw [if_neg (by omega), if_pos (by omega)]
              simp
          have hesc : escByte b = [92, 117, 48, 48, hexDig (b / 16), hexDig (b % 16)] := by
            simp [escByte, h34, h92, hc]
          rw [hesc]
          have hb16 : 16 * (b / 16) + b % 16 = b := Nat.div_add_mod b 16
          simp [parseStr, parseStrEsc, hv1, hv2, ih rest, hb16]
        · have hesc : escByte b = [b] := by
            simp [escByte, h34, h92, hc]
          rw [hesc, show ([b] : List Nat) ++ (serStrBody bs ++ rest)
              = b :: (serStrBody bs ++ rest) from rfl]
          rw [parseStr_plain b _ h34 h92, ih rest]
          rfl

theorem digitBytes_shape (n : Nat) :
    ∃ d ds, digitBytes n = (d + 48) :: ds ∧ d < 10 := by
  have hne := digitBytes_ne_nil n
  cases hd : digitBytes n with
  | nil => exact absurd hd hne
  | cons x xs =>
    have hx : x ∈ digitBytes n := by rw [hd]; simp
    have := digitBytes_digits n x hx
    simp only [isDigitB, decide_eq_true_eq] at this
    refine ⟨x - 48, xs, ?_, by omega⟩
    have hx2 : x - 48 + 48 = x := by omega
    rw [hx2]

theorem serJ_shape (j : Json) : ∃ b t, serJ j = b :: t ∧ b ≠ 93 := by
  cases j with
  | null => exact ⟨110, _, rfl, by omega⟩
  | bool b => cases b with
    | true => exact ⟨116, _, rfl, by omega⟩
    | false => exact ⟨102, _, rfl, by omega⟩
  | num i =>
    by_cases h : i < 0
    · exact ⟨45, digitBytes i.natAbs, by simp [serJ, serNum, h], by omega⟩
    · obtain ⟨d, ds, hd, hlt⟩ := digitBytes_shape i.natAbs
      exact ⟨d + 48, ds, by simp [serJ, serNum, h, hd], by omega⟩
  | str s => exact ⟨34, _, rfl, by omega⟩
  | arr l => cases l with
    | nil => exact ⟨91, _, rfl, by omega⟩
    | cons x t => exact ⟨91, _, rfl, by omega⟩
  | obj m => cases m with
    | nil => exact ⟨123, _, rfl, by omega⟩
    | cons k v t => exact ⟨123, _, rfl, by omega⟩


theorem sizeJ_pos : ∀ j : Json, 0 < sizeJ j := by
  intro j
  cases j <;> simp [sizeJ]

theorem noDigit_aTail (t : JsonArr) (rest : List Nat) :
    noDigitHead (serATail t ++ (93 :: rest)) = true := by
  cases t <;> simp [serATail, noDigitHead, isDigitB]

theorem noDigit_oTail (t : JsonObj) (rest : List Nat) :
    noDigitHead (serOTail t ++ (125 :: rest)) = true := by
  cases t <;> simp [serOTail, noDigitHead, isDigitB]

theorem parseVal_str_step (f : Nat) (r : List Nat) :
    parseVal (f + 1) (34 :: r) = (parseStr r).map (fun p => (Json.str p.1, p.2)) := rfl

theorem parseVal_arr_step (f : Nat) (r : List Nat) :
    parseVal (f + 1) (91 :: r)
      = if r.head? = some 93 then some (.arr .nil, r.tail)
        else (parseItems f r).map (fun p => (Json.arr p.1, p.2)) := rfl

theorem parseVal_obj_step (f : Nat) (r : List Nat) :
    parseVal (f + 1) (123 :: r)
      = if r.head? = some 125 then some (.obj .nil, r.tail)
        else (parseMembs f r).map (fun p => (Json.obj p.1, p.2)) := rfl

theorem parseVal_neg_step (f : Nat) (r : List Nat) :
    parseVal (f + 1) (45 :: r)
      = (parseNumPos r).map (fun p => (Json.num (-(p.1 : Int)), p.2)) := rfl

theorem parseVal_digit_step (f b : Nat) (r : List Nat) (hdig : isDigitB b = true) :
    parseVal (f + 1) (b :: r)
      = (parseNumPos (b :: r)).map (fun p => (Json.num ((p.1 : Int)), p.2)) := by
  have hb : 48 ≤ b ∧ b ≤ 57 := by simpa [isDigitB] using hdig
  simp only [parseVal]
  rw [if_neg (by omega), if_neg (by omega), if_neg (by omega), if_neg (by omega),
    if_neg (by omega), if_neg (by omega), if_neg (by omega), if_pos hdig]

theorem parse_ser_fuel : ∀ fuel : Nat,
    (∀ (j : Json) (rest : List Nat), sizeJ j ≤ fuel → noDigitHead rest = true →
      parseVal fuel (serJ j ++ rest) = some (j, rest))
    ∧ (∀ (x : Json) (t : JsonArr) (rest : List Nat), 1 + sizeJ x + sizeA t ≤ fuel →
      parseItems fuel (serJ x ++ (serATail t ++ (93 :: rest))) = some (.cons x t, rest))
    ∧ (∀ (k : List Nat) (v : Json) (t : JsonObj) (rest : List Nat),
      1 + sizeJ v + sizeO t ≤ fuel →
      parseMembs fuel (serMemb k v ++ (serOTail t ++ (125 :: rest)))
        = some (.cons k v t, rest)) := by
  intro fuel
  induction fuel with
  | zero =>
    refine ⟨?_, ?_, ?_⟩
    · intro j rest hsz _
      exact absurd hsz (by have := sizeJ_pos j; omega)
    · intro x t rest hsz
      exact absurd hsz (by omega)
    · intro k v t rest hsz
      exact absurd hsz (by omega)
  | succ f ih =>
    obtain ⟨ih1, ih2, ih3⟩ := ih
    refine ⟨?_, ?_, ?_⟩
    · -- values
      intro j rest hsz hrest
      cases j with
      | null => simp [serJ, parseVal]
      | bool b => cases b <;> simp [serJ, parseVal]
      | num i =>
        by_cases hi : i < 0
        · have hser : serJ (.num i) ++ rest = 45 :: (digitBytes i.natAbs ++ rest) := by
            simp [serJ, serNum, hi]
          rw [hser, parseVal_neg_step, parseNumPos_spec i.natAbs rest hrest]
          have hval : -((i.natAbs : Int)) = i := by omega
          show some (Json.num (-((i.natAbs : Int))), rest) = some (Json.num i, rest)
          rw [hval]
        · obtain ⟨d, ds, hd, hlt⟩ := digitBytes_shape i.natAbs
          have hser : serJ (.num i) ++ rest = (d + 48) :: (ds ++ rest) := by
            simp [serJ, serNum, hi, hd]
          rw [hser]
          have hdig : isDigitB (d + 48) = true := by
            simp [isDigitB]
            omega
          rw [parseVal_digit_step f (d + 48) (ds ++ rest) hdig]
          rw [show (d + 48) :: (ds ++ rest) = digitBytes i.natAbs ++ rest by simp [hd]]
          rw [parseNumPos_spec i.natAbs rest hrest]
          have hval : ((i.natAbs : Int)) = i := by omega
          show some (Json.num ((i.natAbs : Int)), rest) = some (Json.num i, rest)
          rw [hval]
      | str s =>
        have hser : serJ (.str s) ++ rest = 34 :: (serStrBody s ++ rest) := by
          simp [serJ]
        rw [hser, parseVal_str_step, parseStr_ser s rest]
        rfl
      | arr l =>
        cases l with
        | nil => simp [serJ, parseVal]
        | cons x t =>
          obtain ⟨bx, tx, hserx, hbx⟩ := serJ_shape x
          have hser : serJ (.arr (.cons x t)) ++ rest
              = 91 :: (serJ x ++ (serATail t ++ (93 :: rest))) := by
            simp [serJ]
          rw [hser]
          have hcond : ¬ ((serJ x ++ (serATail t ++ (93 :: rest))).head? = some 93) := by
            rw [hserx]
            simp [hbx]
          have hfuel : 1 + sizeJ x + sizeA t ≤ f := by
            simp only [sizeJ, sizeA] at hsz
            omega
          rw [parseVal_arr_step, if_neg hcond, ih2 x t rest hfuel]
          rfl
      | obj m =>
        cases m with
        | nil => simp [serJ, parseVal]
        | cons k v t =>
          have hser : serJ (.obj (.cons k v t)) ++ rest
              = 123 :: (serMemb k v ++ (serOTail t ++ (125 :: rest))) := by
            simp [serJ_obj_cons, serMemb]
          rw [hser]
          have hcond : ¬ ((serMemb k v ++ (serOTail t ++ (125 :: rest))).head? = some 125) := by
            simp [serMemb]
          have hfuel : 1 + sizeJ v + sizeO t ≤ f := by
            simp only [sizeJ, sizeO] at hsz
            omega
          rw [parseVal_obj_step, if_neg hcond, ih3 k v t rest hfuel]
          rfl
    · -- array items
      intro x t rest hsz
      have hfx : sizeJ x ≤ f := by omega
      have hx := ih1 x (serATail t ++ (93 :: rest)) hfx (noDigit_aTail t rest)
      cases t with
      | nil =>
        have hx2 : parseVal f (serJ x ++ (93 :: rest)) = some (x, 93 :: rest) := by
          simpa [serATail] using hx
        simp only [serATail, List.nil_append]
        simp only [parseItems, hx2]
      | cons y t2 =>
        have hfy : 1 + sizeJ y + sizeA t2 ≤ f := by
          simp only [sizeA] at hsz
          omega
        have htail : serATail (.cons y t2) ++ (93 :: rest)
            = 44 :: (serJ y ++ (serATail t2 ++ (93 :: rest))) := by
          simp [serATail]
        rw [show serJ x ++ (serATail (.cons y t2) ++ (93 :: rest))
            = serJ x ++ (44 :: (serJ y ++ (serATail t2 ++ (93 :: rest)))) by rw [← htail]]
        rw [show serATail (.cons y t2) ++ (93 :: rest)
            = 44 :: (serJ y ++ (serATail t2 ++ (93 :: rest))) from htail] at hx
        simp only [parseItems, hx, ih2 y t2 rest hfy]
        rfl
    · -- object members
      intro k v t rest hsz
      have hfv : sizeJ v ≤ f := by omega
      have hv := ih1 v (serOTail t ++ (125 :: rest)) hfv (noDigit_oTail t rest)
      have hser : serMemb k v ++ (serOTail t ++ (125 :: rest))
          = 34 :: (serStrBody k ++ (58 :: (serJ v ++ (serOTail t ++ (125 :: rest))))) := by
        simp [serMemb]
      rw [hser]
      have hstr := parseStr_ser k (58 :: (serJ v ++ (serOTail t ++ (125 :: rest))))
      cases t with
      | nil =>
        simp only [serOTail, List.nil_append] at hv hstr ⊢
        simp only [parseMembs, List.head?_cons, List.tail_cons, hstr, hv]
        simp
      | cons k2 v2 t2 =>
        have hf2 : 1 + sizeJ v2 + sizeO t2 ≤ f := by
          simp only [sizeO] at hsz
          omega
        have htail : serOTail (.cons k2 v2 t2) ++ (125 :: rest)
            = 44 :: (serMemb k2 v2 ++ (serOTail t2 ++ (125 :: rest))) := by
          simp [serOTail_cons]
        rw [htail] at hv
        simp only [parseMembs, List.head?_cons, List.tail_cons, hstr]
        rw [htail, hv]
        simp [ih3 k2 v2 t2 rest hf2]

theorem size_le_len_aux : ∀ n : Nat,
    (∀ j : Json, sizeJ j ≤ n → sizeJ j ≤ (serJ j).length)
    ∧ (∀ t : JsonArr, sizeA t ≤ n → sizeA t ≤ (serATail t).length)
    ∧ (∀ o : JsonObj, sizeO o ≤ n → sizeO o ≤ (serOTail o).length) := by
  intro n
  induction n with
  | zero =>
    refine ⟨?_, ?_, ?_⟩
    · intro j hsz
      exact absurd hsz (by have := sizeJ_pos j; omega)
    · intro t hsz
      cases t with
      | nil => simp [sizeA]
      | cons y t2 => exact absurd hsz (by simp only [sizeA]; omega)
    · intro o hsz
      cases o with
      | nil => simp [sizeO]
      | cons k v t2 => exact absurd hsz (by simp only [sizeO]; omega)
  | succ n ih =>
    obtain ⟨ih1, ih2, ih3⟩ := ih
    refine ⟨?_, ?_, ?_⟩
    · intro j hsz
      cases j with
      | null => simp [sizeJ, serJ]
      | bool b => cases b <;> simp [sizeJ, serJ]
      | num i =>
        have hne : serNum i ≠ [] := by
          by_cases hi : i < 0 <;> simp [serNum, hi, digitBytes_ne_nil]
        have := List.length_pos.mpr hne
        simp only [sizeJ, serJ]
        omega
      | str s => simp [sizeJ, serJ]
      | arr l =>
        cases l with
        | nil => simp [sizeJ, sizeA, serJ]
        | cons x t =>
          simp only [sizeJ, sizeA] at hsz ⊢
          have h1 := ih1 x (by omega)
          have h2 := ih2 t (by omega)
          simp only [serJ, List.length_cons, List.length_append]
          omega
      | obj m =>
        cases m with
        | nil => simp [sizeJ, sizeO, serJ]
        | cons k v t =>
          simp only [sizeJ, sizeO] at hsz ⊢
          have h1 := ih1 v (by omega)
          have h2 := ih3 t (by omega)
          simp only [serJ_obj_cons, serMemb, List.length_cons, List.length_append]
          omega
    · intro t hsz
      cases t with
      | nil => simp [sizeA]
      | cons y t2 =>
        simp only [sizeA] at hsz ⊢
        have h1 := ih1 y (by omega)
        have h2 := ih2 t2 (by omega)
        simp only [serATail, List.length_cons, List.length_append]
        omega
    · intro o hsz
      cases o with
      | nil => simp [sizeO]
      | cons k v t2 =>
        simp only [sizeO] at hsz ⊢
        have h1 := ih1 v (by omega)
        have h2 := ih3 t2 (by omega)
        simp only [serOTail_cons, serMemb, List.length_cons, List.length_append]
        omega

theorem sizeJ_le_serJ (j : Json) : sizeJ j ≤ (serJ j).length :=
  (size_le_len_aux (sizeJ j)).1 j (le_refl _)

/-- JSON.parse of a whole frame: the frame text must be consumed
entirely (trailing garbage makes JSON.parse throw, modelled as none).
The fuel one-more-than-the-byte-count always suffices. -/
def decodeJson (bs : List Nat) : Option Json :=
  match parseVal (bs.length + 1) bs with
  | some (j, []) => some j
  | _ => none

theorem decodeJson_ser (j : Json) : decodeJson (serJ j) = some j := by
  have h := (parse_ser_fuel ((serJ j).length + 1)).1 j []
    (by have := sizeJ_le_serJ j; omega) rfl
  rw [List.append_nil] at h
  simp [decodeJson, h]

/-! The protocol envelope (interface MimirPacket in the source): an
event tag, an optional request_id (a JS string, carried as its bytes),
and a JSON data payload.  JSON.stringify writes the fields in object
literal insertion order: event, request_id (omitted when the property is
absent), data. -/

inductive PEvent where
  | message
  | command
  | query
  | response
  | completionStart
  | completionPacket
  | completionStop
deriving DecidableEq

/-- UTF-8 bytes of the event tag string. -/
def eventName : PEvent → List Nat
  | .message => [109, 101, 115, 115, 97, 103, 101]
  | .command => [99, 111, 109, 109, 97, 110, 100]
  | .query => [113, 117, 101, 114, 121]
  | .response => [114, 101, 115, 112, 111, 110, 115, 101]
  | .completionStart => [99, 111, 109, 112, 108, 101, 116, 105, 111, 110, 83, 116, 97, 114, 116]
  | .completionPacket => [99, 111, 109, 112, 108, 101, 116, 105, 111, 110, 80, 97, 99, 107, 101, 116]
  | .completionStop => [99, 111, 109, 112, 108, 101, 116, 105, 111, 110, 83, 116, 111, 112]

def eventOfName (s : List Nat) : Option PEvent :=
  if s = eventName .message then some .message
  else if s = eventName .command then some .command
  else if s = eventName .query then some .query
  else if s = eventName .response then some .response
  else if s = eventName .completionStart then some .completionStart
  else if s = eventName .completionPacket then some .completionPacket
  else if s = eventName .completionStop then some .completionStop
  else none

structure MimirPacket where
  event : PEvent
  request_id : Option (List Nat)
  data : Json

/-- Bytes of the JS property name event. -/
def keyEvent : List Nat := [101, 118, 101, 110, 116]

/-- Bytes of the JS property name request_id. -/
def keyReqId : List Nat := [114, 101, 113, 117, 101, 115, 116, 95, 105, 100]

/-- Bytes of the JS property name data. -/
def keyData : List Nat := [100, 97, 116, 97]

/-- The JSON object JSON.stringify serializes for a packet object
(property order: event, request_id when present, data). -/
def packetToJson (p : MimirPacket) : Json :=
  .obj (.cons keyEvent (.str (eventName p.event))
    (match p.request_id with
     | some rid => .cons keyReqId (.str rid) (.cons keyData p.data .nil)
     | none => .cons keyData p.data .nil))

/-- JS property access on a parsed JSON object (first binding wins). -/
def objLookup : JsonObj → List Nat → Option Json
  | .nil, _ => none
  | .cons k v t, key => if k = key then some v else objLookup t key

/-- Reading the fields of a parsed packet the way the source does
(msg.event, msg.request_id, msg.data). -/
def packetOfJson (j : Json) : Option MimirPacket :=
  match j with
  | .obj o =>
    match objLookup o keyEvent with
    | some (.str en) =>
      match eventOfName en with
      | some ev =>
        match objLookup o keyData with
        | some d =>
          match objLookup o keyReqId with
          | some (.str rid) => some { event := ev, request_id := some rid, data := d }
          | some _ => none
          | none => some { event := ev, request_id := none, data := d }
        | none => none
      | none => none
    | _ => none
  | _ => none

theorem eventOfName_eventName (e : PEvent) : eventOfName (eventName e) = some e := by
  cases e <;> rfl

theorem packetOfJson_toJson (p : MimirPacket) : packetOfJson (packetToJson p) = some p := by
  obtain ⟨e, rid, d⟩ := p
  cases rid with
  | none =>
    simp only [packetToJson, packetOfJson, objLookup, keyEvent, keyReqId, keyData]
    norm_num
    simp [eventOfName_eventName]
  | some rid =>
    simp only [packetToJson, packetOfJson, objLookup, keyEvent, keyReqId, keyData]
    norm_num
    simp [eventOfName_eventName]

/-- sendToStream: JSON.stringify the packet, UTF-8 encode, length-prefix
with lp.encode. -/
def encodePacket (p : MimirPacket) : List Nat := frameEnc (serJ (packetToJson p))

/-- receiveFromStream applied to a single frame: UTF-8 decode,
JSON.parse, read the packet fields. -/
def decodePacket (frame : List Nat) : Option MimirPacket :=
  match decodeJson frame with
  | some j => packetOfJson j
  | none => none

/-- The whole receiveFromStream pipeline on a byte sequence: lp.decode
into frames, then parse each frame. -/
def decodeWire (bytes : List Nat) : List (Option MimirPacket) :=
  (lpDecode bytes).map decodePacket

theorem decodePacket_ser (p : MimirPacket) :
    decodePacket (serJ (packetToJson p)) = some p := by
  simp [decodePacket, decodeJson_ser, packetOfJson_toJson]

theorem serJ_packet_pos (p : MimirPacket) : 0 < (serJ (packetToJson p)).length := by
  obtain ⟨e, rid, d⟩ := p
  cases rid <;> simp [packetToJson, serJ]

/-- The frames decoded after the first k chunks of a chunked delivery
have been fed to receiveFromStream, already parsed into packets. -/
def decodedAfter (chunks : List (List Nat)) (k : Nat) : List (Option MimirPacket) :=
  ((lpRunChunks (.len 0 0) (chunks.take k)).2).map decodePacket

theorem take_flatten_pref (chunks : List (List Nat)) (k : Nat) :
    (chunks.take k).flatten <+: chunks.flatten := by
  conv_rhs => rw [← List.take_append_drop k chunks]
  rw [List.flatten_append]
  exact ⟨(chunks.drop k).flatten, rfl⟩

/-- C4: for every packet p, decoding the length-prefixed encoding of p
through the receive pipeline yields exactly p (decode is a left inverse
of encode on the packet wire format). -/
theorem c4_packet_roundtrip (p : MimirPacket) : decodeWire (encodePacket p) = [some p] := by
  have h := lpRun_frame (serJ (packetToJson p)) [] (serJ_packet_pos p)
  rw [List.append_nil] at h
  simp only [decodeWire, lpDecode, encodePacket, h]
  simp [decodePacket_ser, lpRun]

/-- C5: for every two packets and every partition of the concatenation
of their encodings into chunks at arbitrary byte offsets, incremental
decoding of the chunk sequence yields exactly [p1, p2] in order, and
after any number k of chunks the packets emitted are exactly those whose
full length-prefixed frame has arrived. -/
theorem c5_chunked_decode (p1 p2 : MimirPacket) (chunks : List (List Nat))
    (h : chunks.flatten = encodePacket p1 ++ encodePacket p2) :
    decodedAfter chunks chunks.length = [some p1, some p2] ∧
    ∀ k, decodedAfter chunks k =
      if ((chunks.take k).flatten).length < (encodePacket p1).length then []
      else if ((chunks.take k).flatten).length
          < (encodePacket p1).length + (encodePacket p2).length then [some p1]
      else [some p1, some p2] := by
  have hmain : ∀ k, decodedAfter chunks k =
      if ((chunks.take k).flatten).length < (encodePacket p1).length then []
      else if ((chunks.take k).flatten).length
          < (encodePacket p1).length + (encodePacket p2).length then [some p1]
      else [some p1, some p2] := by
    intro k
    have hpref : (chunks.take k).flatten
        <+: frameEnc (serJ (packetToJson p1)) ++ frameEnc (serJ (packetToJson p2)) := by
      rw [show frameEnc (serJ (packetToJson p1)) ++ frameEnc (serJ (packetToJson p2))
          = chunks.flatten from h.symm]
      exact take_flatten_pref chunks k
    have h2f := lpOut_two_frames (serJ (packetToJson p1)) (serJ (packetToJson p2))
      ((chunks.take k).flatten) (serJ_packet_pos p1) (serJ_packet_pos p2) hpref
    show ((lpRunChunks (.len 0 0) (chunks.take k)).2).map decodePacket = _
    rw [lpRunChunks_eq_join, h2f]
    rw [apply_ite (List.map decodePacket), apply_ite (List.map decodePacket)]
    simp only [List.map_nil, List.map_cons, decodePacket_ser]
    rfl
  refine ⟨?_, hmain⟩
  rw [hmain chunks.length, List.take_length, h, List.length_append]
  rw [if_neg (by omega)]
  have hp2 : 0 < (encodePacket p2).length := by
    show 0 < (frameEnc (serJ (packetToJson p2))).length
    unfold frameEnc
    rw [List.length_append]
    have := serJ_packet_pos p2
    omega
  rw [if_neg (by omega)]

/-- A chunked delivery cut in the middle of the first frame yields both
packets once everything has arrived: concrete witness for the
chunked-decode theorem. -/
theorem c5_chunked_decode_witness :
    ([[31, 123, 34, 101, 118],
      [101, 110, 116, 34, 58, 34, 109, 101, 115, 115, 97, 103, 101, 34, 44, 34, 100,
       97, 116, 97, 34, 58, 110, 117, 108, 108, 125, 32, 123, 34, 101, 118, 101, 110,
       116, 34, 58, 34, 114, 101, 115, 112, 111, 110, 115, 101, 34, 44, 34, 100, 97,
       116, 97, 34, 58, 116, 114, 117, 101, 125]] : List (List Nat)).flatten
      = encodePacket { event := .message, request_id := none, data := .null }
        ++ encodePacket { event := .response, request_id := none, data := .bool true } ∧
    decodedAfter [[31, 123, 34, 101, 118],
      [101, 110, 116, 34, 58, 34, 109, 101, 115, 115, 97, 103, 101, 34, 44, 34, 100,
       97, 116, 97, 34, 58, 110, 117, 108, 108, 125, 32, 123, 34, 101, 118, 101, 110,
       116, 34, 58, 34, 114, 101, 115, 112, 111, 110, 115, 101, 34, 44, 34, 100, 97,
       116, 97, 34, 58, 116, 114, 117, 101, 125]] 2
      = [some { event := .message, request_id := none, data := .null },
         some { event := .response, request_id := none, data := .bool true }] :=
  ⟨by decide,
    (c5_chunked_decode { event := .message, request_id := none, data := .null }
      { event := .response, request_id := none, data := .bool true }
      [[31, 123, 34, 101, 118],
       [101, 110, 116, 34, 58, 34, 109, 101, 115, 115, 97, 103, 101, 34, 44, 34, 100,
        97, 116, 97, 34, 58, 110, 117, 108, 108, 125, 32, 123, 34, 101, 118, 101, 110,
        116, 34, 58, 34, 114, 101, 115, 112, 111, 110, 115, 101, 34, 44, 34, 100, 97,
        116, 97, 34, 58, 116, 114, 117, 101, 125]] (by decide)).1⟩

/-- The packet handleMessage wraps each backend chunk into
(event completionPacket, data chunk), with no request id. -/
def completionWrap (d : Json) : MimirPacket :=
  { event := .completionPacket, request_id := none, data := d }

/-- The byte stream handleMessage writes (source lines 187-197): each
backend chunk wrapped, stringified, UTF-8 encoded and length-prefixed by
lp.encode, concatenated in the order the chunks were yielded. -/
def handleMessageWire (chunks : List Json) : List Nat :=
  (((chunks.map completionWrap).map (fun p => serJ (packetToJson p))).map frameEnc).flatten

/-- C9: for every sequence of backend chunks, the client-visible decoded
sequence of the relayed stream equals the backend sequence mapped
through the completionPacket wrapper, in the same order, with nothing
dropped, reordered or batched. -/
theorem c9_relay_order (chunks : List Json) :
    decodeWire (handleMessageWire chunks) = chunks.map (fun c => some (completionWrap c)) := by
  induction chunks with
  | nil => rfl
  | cons c cs ih =>
    have hstep : handleMessageWire (c :: cs)
        = frameEnc (serJ (packetToJson (completionWrap c))) ++ handleMessageWire cs := by
      simp [handleMessageWire]
    have hframe := lpRun_frame (serJ (packetToJson (completionWrap c)))
      (handleMessageWire cs) (serJ_packet_pos (completionWrap c))
    simp only [decodeWire, lpDecode] at ih ⊢
    rw [hstep, hframe]
    show (decodePacket (serJ (packetToJson (completionWrap c))))
        :: ((lpRun (.len 0 0) (handleMessageWire cs)).2.map decodePacket)
      = some (completionWrap c) :: cs.map (fun c => some (completionWrap c))
    rw [decodePacket_ser, ih]

/-! Peer bookkeeping (MimirP2PClient).  A peer identity is opaque and
supplied by the substrate; it is modelled as a Nat, with equals as
equality.  A CID is carried as the bytes of its string form (CID.parse
and toString round-trip per the multiformats contract). -/

/-- Bytes of the model name llama3.2:latest. -/
def llamaModelName : List Nat := [108, 108, 97, 109, 97, 51, 46, 50, 58, 108, 97, 116, 101, 115, 116]

/-- Bytes of the content identifier llmCidMap maps llama3.2:latest to. -/
def llamaCid : List Nat := [81, 109, 78, 105, 122, 69, 116, 53, 87, 76, 121, 69, 68, 85, 72, 77, 113, 115, 109, 56, 57, 82, 72, 72, 78, 82, 54, 51, 68, 89, 85, 83, 100, 116, 83, 51, 56, 65, 101, 71, 52, 88, 85, 86, 54, 67]

/-- The static llmCidMap catalog: model name to content identifier. -/
def llmCidMapL : List (List Nat × List Nat) := [(llamaModelName, llamaCid)]

/-- One entry of llmPeerMap (interface LLMPeer). -/
structure LLMPeer where
  peerId : Nat
  llmCID : List Nat
deriving DecidableEq

/-- One js value of the data array of a response is used as a property
key into llmCidMap; only a string can name a catalog entry, and the
add is guarded by the truthiness of the looked-up value. -/
def cidOfModel : Json → Option (List Nat)
  | .str s => llmCidMapL.lookup s
  | _ => none

/-- The peer-record insertions dialDiscovery performs for the data array
of one identify response (source lines 300-311): for each model with a
catalog entry, Set.add of a freshly constructed record object.  A JS Set
is keyed by object identity and the record object is new on every
iteration, so the add always appends (insertion order preserved). -/
def processResponseData (st : List LLMPeer) (pid : Nat) : JsonArr → List LLMPeer
  | .nil => st
  | .cons m t =>
    match cidOfModel m with
    | some cid => processResponseData (st ++ [{ peerId := pid, llmCID := cid }]) pid t
    | none => processResponseData st pid t

/-- Client-side per-request state: the peer directory and the pending
request map (request_id to dialed multiaddr), both byte-keyed. -/
structure ClientState where
  llmPeerMap : List LLMPeer
  requests : List (List Nat × List Nat)

/-- Map.has on the pending-request map. -/
def hasReq (rs : List (List Nat × List Nat)) (rid : List Nat) : Bool :=
  (rs.lookup rid).isSome

/-- Map.delete on the pending-request map. -/
def delReq (rs : List (List Nat × List Nat)) (rid : List Nat) :
    List (List Nat × List Nat) :=
  rs.filter (fun e => !(e.1 == rid))

/-- The timeout callback of dialDiscovery (source lines 283-292): if the
request is still pending, remove it and reject the timeout promise with
the timeout error; otherwise do nothing.  The Bool reports whether the
rejection fired. -/
def onTimeout (st : ClientState) (rid : List Nat) : ClientState × Bool :=
  if hasReq st.requests rid then
    ({ st with requests := delReq st.requests rid }, true)
  else (st, false)

/-- The response handler of dialDiscovery (source lines 294-316) applied
to one received message: a response whose request_id is pending deletes
the pending entry and inserts a record for every advertised model found
in the catalog; anything else changes nothing.  (A non-array data field
would throw in the for-of after the delete, adding no record.) -/
def onResponse (st : ClientState) (pid : Nat) (msg : MimirPacket) : ClientState :=
  match msg.request_id with
  | none => st
  | some rid =>
    if msg.event = .response ∧ hasReq st.requests rid = true then
      { llmPeerMap :=
          match msg.data with
          | .arr l => processResponseData st.llmPeerMap pid l
          | _ => st.llmPeerMap,
        requests := delReq st.requests rid }
    else st

/-- The response handleIdentify sends for one query packet (source lines
130-134): event response, the request_id echoed, the locally hosted
model list as data. -/
def identifyRespond (m : MimirPacket) : MimirPacket :=
  { event := .response, request_id := m.request_id,
    data := .arr (.cons (.str llamaModelName) .nil) }

/-- The server-side identify handler (source lines 126-137): the
for-await loop answers every query packet on the stream, in order, and
ignores everything else. -/
def handleIdentify : List MimirPacket → List MimirPacket
  | [] => []
  | m :: rest =>
    if m.event = .query then identifyRespond m :: handleIdentify rest
    else handleIdentify rest

/-- The disconnect handler (source lines 93-104): iterate llmPeerMap in
insertion order and delete every record whose peerId equals the
disconnected peer. -/
def onDisconnect : List LLMPeer → Nat → List LLMPeer
  | [], _ => []
  | p :: rest, pid =>
    if p.peerId = pid then onDisconnect rest pid
    else p :: onDisconnect rest pid

/-- Outcome of sendMessage (source lines 151-173). -/
inductive SendOutcome where
  | noPeers
  | typeError
  | dialed (peerId : Nat) (packet : MimirPacket)

/-- sendMessage: an empty directory logs no-peers-available and returns
early; otherwise the first record whose CID string equals the catalog
entry for llama3.2:latest is chosen and dialed with the message packet
(an absent match makes reading .peerId of undefined throw before any
dial). -/
def sendMessage (st : List LLMPeer) (request : JsonObj) : SendOutcome :=
  if st.length = 0 then .noPeers
  else
    match (st.filter (fun p => p.llmCID == llamaCid)).head? with
    | some peer =>
      .dialed peer.peerId { event := .message, request_id := none, data := .obj request }
    | none => .typeError

/-- The peers a sendMessage outcome dials (at most one). -/
def dialsOf : SendOutcome → List Nat
  | .dialed pid _ => [pid]
  | _ => []

/-- Bytes of the JS property name model. -/
def keyModel : List Nat := [109, 111, 100, 101, 108]

/-- Bytes of the JS property name stream. -/
def keyStream : List Nat := [115, 116, 114, 101, 97, 109]

/-- Whether a parsed object has a property with the given name. -/
def objHasKey : JsonObj → List Nat → Bool
  | .nil, _ => false
  | .cons k _ t, key => if k = key then true else objHasKey t key

/-- JS object literal update semantics for spread-then-override: a later
property overwrites the value of an earlier one in place (keeping the
first occurrence position); an absent property is appended. -/
def objSetVal : JsonObj → List Nat → Json → JsonObj
  | .nil, key, v => .cons key v .nil
  | .cons k v0 t, key, v =>
    if k = key then .cons k v t else .cons k v0 (objSetVal t key v)

/-- The llmRequest handleMessage builds (source lines 179-183): the
incoming data spread, then model pinned to llama3.2:latest and stream
set to true. -/
def buildLlmRequest (data : JsonObj) : JsonObj :=
  objSetVal (objSetVal data keyModel (.str llamaModelName)) keyStream (.bool true)

theorem lookup_filter_ne (rid : List Nat) : ∀ rs : List (List Nat × List Nat),
    List.lookup rid (rs.filter (fun e => !(e.1 == rid))) = none := by
  intro rs
  induction rs with
  | nil => rfl
  | cons e es ih =>
    obtain ⟨k, v⟩ := e
    by_cases h : (k == rid) = true
    · simp only [List.filter_cons]
      simp only [h, Bool.not_true, if_false]
      exact ih
    · have h2 : (k == rid) = false := by simpa using h
      have hne : (rid == k) = false := by
        simp at h2 ⊢
        exact fun hh => h2 hh.symm
      simp only [List.filter_cons, h2, Bool.not_false, if_true, List.lookup, hne]
      exact ih

theorem hasReq_delReq (rs : List (List Nat × List Nat)) (rid : List Nat) :
    hasReq (delReq rs rid) rid = false := by
  simp [hasReq, delReq, lookup_filter_ne]

theorem cidOfModel_llama (m : Json) (cid : List Nat) (h : cidOfModel m = some cid) :
    cid = llamaCid := by
  cases m with
  | str s =>
    simp only [cidOfModel, llmCidMapL, List.lookup] at h
    by_cases hs : (s == llamaModelName) = true
    · rw [hs] at h
      simp at h
      exact h.symm
    · have hs2 : (s == llamaModelName) = false := by simpa using hs
      rw [hs2] at h
      simp at h
  | null => simp [cidOfModel] at h
  | bool b => simp [cidOfModel] at h
  | num n => simp [cidOfModel] at h
  | arr l => simp [cidOfModel] at h
  | obj o => simp [cidOfModel] at h

theorem processResponseData_inv : ∀ (l : JsonArr) (st : List LLMPeer) (pid : Nat),
    (∀ p ∈ st, p.llmCID = llamaCid) →
    ∀ p ∈ processResponseData st pid l, p.llmCID = llamaCid
  | .nil, st, pid, hinv => hinv
  | .cons m t, st, pid, hinv => by
    cases hm : cidOfModel m with
    | none =>
      simpa [processResponseData, hm] using processResponseData_inv t st pid hinv
    | some cid =>
      have hcid : cid = llamaCid := cidOfModel_llama m cid hm
      simp only [processResponseData, hm]
      refine processResponseData_inv t (st ++ [{ peerId := pid, llmCID := cid }]) pid ?_
      intro p hp
      rcases List.mem_append.mp hp with h1 | h2
      · exact hinv p h1
      · simp at h2
        simp [h2, hcid]

theorem processAppend (st : List LLMPeer) (pid : Nat) (m cid : List Nat)
    (h : cidOfModel (.str m) = some cid) :
    processResponseData st pid (.cons (.str m) .nil)
      = st ++ [{ peerId := pid, llmCID := cid }] := by
  simp [processResponseData, h]

theorem cid_llama_lookup : cidOfModel (.str llamaModelName) = some llamaCid := by decide

theorem objLookup_setVal_self : ∀ (o : JsonObj) (key : List Nat) (v : Json),
    objLookup (objSetVal o key v) key = some v
  | .nil, key, v => by simp [objSetVal, objLookup]
  | .cons k v0 t, key, v => by
    by_cases h : k = key
    · simp [objSetVal, objLookup, h]
    · simp [objSetVal, objLookup, h, objLookup_setVal_self t key v]

theorem objLookup_setVal_other : ∀ (o : JsonObj) (key key2 : List Nat) (v : Json),
    ¬ key = key2 → objLookup (objSetVal o key2 v) key = objLookup o key
  | .nil, key, key2, v, hne => by
    have hne2 : ¬ key2 = key := fun hh => hne hh.symm
    simp [objSetVal, objLookup, hne2]
  | .cons k v0 t, key, key2, v, hne => by
    by_cases h : k = key2
    · subst h
      have hne2 : ¬ k = key := fun hh => hne hh.symm
      simp [objSetVal, objLookup, hne2]
    · simp [objSetVal, objLookup, h, objLookup_setVal_other t key key2 v hne]

theorem head?_mem {α : Type} {l : List α} {a : α} (h : l.head? = some a) : a ∈ l := by
  cases l with
  | nil => simp at h
  | cons x xs =>
    simp at h
    simp [h]

/-- C1: once the 5-second deadline fires for a pending identify request,
the pending entry for that requestId is removed and the timeout
rejection (the TimeoutError delivered to the waiter) fires; afterwards a
response carrying the same requestId changes nothing (no peer-directory
mutation, no request-map mutation), and the timeout cannot fire a second
time — the error is delivered exactly once. -/
theorem c1_timeout_exactly_once (st : ClientState) (rid : List Nat) (pid : Nat)
    (msg : MimirPacket)
    (hpend : hasReq st.requests rid = true) (hmsg : msg.request_id = some rid) :
    (onTimeout st rid).2 = true ∧
    hasReq (onTimeout st rid).1.requests rid = false ∧
    onResponse (onTimeout st rid).1 pid msg = (onTimeout st rid).1 ∧
    (onTimeout (onTimeout st rid).1 rid).2 = false := by
  have h1 : onTimeout st rid = ({ st with requests := delReq st.requests rid }, true) := by
    simp [onTimeout, hpend]
  have h2 : hasReq (delReq st.requests rid) rid = false := hasReq_delReq st.requests rid
  rw [h1]
  refine ⟨rfl, h2, ?_, ?_⟩
  · simp [onResponse, hmsg, h2]
  · simp [onTimeout, h2]

/-- Concrete run of the timeout theorem: one pending request, the timer
fires, a late response for the same id is ignored. -/
theorem c1_timeout_exactly_once_witness :
    hasReq (ClientState.mk [] [([49], [47])]).requests [49] = true ∧
    ((onTimeout (ClientState.mk [] [([49], [47])]) [49]).2 = true ∧
     hasReq (onTimeout (ClientState.mk [] [([49], [47])]) [49]).1.requests [49] = false ∧
     onResponse (onTimeout (ClientState.mk [] [([49], [47])]) [49]).1 7
       { event := .response, request_id := some [49], data := .arr .nil }
       = (onTimeout (ClientState.mk [] [([49], [47])]) [49]).1 ∧
     (onTimeout (onTimeout (ClientState.mk [] [([49], [47])]) [49]).1 [49]).2 = false) :=
  ⟨by decide,
    c1_timeout_exactly_once (ClientState.mk [] [([49], [47])]) [49] 7
      { event := .response, request_id := some [49], data := .arr .nil }
      (by decide) rfl⟩

/-- C2: when the peer directory holds no record for the requested model
(with every record resolved from the static catalog, the invariant the
discovery path maintains), sendMessage takes the no-peers early return —
the NoPeerAvailable failure — and dials nobody; being a pure read, it
leaves the directory untouched. -/
theorem c2_no_peer_no_dial (st : List LLMPeer) (request : JsonObj)
    (hinv : ∀ p ∈ st, p.llmCID = llamaCid)
    (hnone : st.filter (fun p => p.llmCID == llamaCid) = []) :
    sendMessage st request = .noPeers ∧ dialsOf (sendMessage st request) = [] := by
  have hempty : st = [] := by
    cases st with
    | nil => rfl
    | cons p ps =>
      have hcid := hinv p (by simp)
      have hp : (p.llmCID == llamaCid) = true := by simp [hcid]
      rw [List.filter_cons] at hnone
      simp [hp] at hnone
  subst hempty
  exact ⟨rfl, rfl⟩

/-- Concrete run of the no-peer theorem on the empty directory. -/
theorem c2_no_peer_no_dial_witness :
    (∀ p ∈ ([] : List LLMPeer), p.llmCID = llamaCid) ∧
    (sendMessage [] .nil = .noPeers ∧ dialsOf (sendMessage [] .nil) = []) :=
  ⟨by simp, c2_no_peer_no_dial [] .nil (by simp) rfl⟩

/-- C3 counterexample: inserting a (peerIdentity, contentAddress) pair
that is already present by value does not leave the collection
unchanged — the JS Set is keyed by object identity and the handler
constructs a fresh record, so the collection grows. -/
theorem c3_add_not_idempotent :
    processResponseData [{ peerId := 1, llmCID := llamaCid }] 1
        (.cons (.str llamaModelName) .nil)
      ≠ [{ peerId := 1, llmCID := llamaCid }] := by decide

/-- C3 amended: the record collection is a JS Set keyed by object
identity, and every resolved model appends a freshly constructed record;
inserting a pair already present by value therefore appends a duplicate
instead of leaving the collection unchanged. -/
theorem c3_add_appends (st : List LLMPeer) (pid : Nat) (m cid : List Nat)
    (h : cidOfModel (.str m) = some cid) :
    processResponseData st pid (.cons (.str m) .nil)
      = st ++ [{ peerId := pid, llmCID := cid }] :=
  processAppend st pid m cid h

/-- Concrete run of the append theorem: the same pair inserted twice is
present twice. -/
theorem c3_add_appends_witness :
    cidOfModel (.str llamaModelName) = some llamaCid ∧
    processResponseData [{ peerId := 1, llmCID := llamaCid }] 1
        (.cons (.str llamaModelName) .nil)
      = [{ peerId := 1, llmCID := llamaCid }] ++ [{ peerId := 1, llmCID := llamaCid }] :=
  ⟨by decide,
    c3_add_appends [{ peerId := 1, llmCID := llamaCid }] 1 llamaModelName llamaCid
      (by decide)⟩

/-- C6: a query with requestId R on an identify stream of a node
advertising llama3.2:latest is answered with exactly
(event response, requestId R, data [llama3.2:latest]); once the client
processes that response (request pending, peer not yet recorded), the
directory holds exactly one record for that peer, mapping to the content
address the static catalog resolves for the model. -/
theorem c6_identify_handshake (rid : List Nat) (pid : Nat) (st : ClientState)
    (q : MimirPacket) (hq : q.event = .query) (hr : q.request_id = some rid)
    (hpend : hasReq st.requests rid = true)
    (hfresh : ∀ p ∈ st.llmPeerMap, p.peerId ≠ pid) :
    handleIdentify [q]
      = [{ event := .response, request_id := some rid,
           data := .arr (.cons (.str llamaModelName) .nil) }] ∧
    (onResponse st pid (identifyRespond q)).llmPeerMap.filter
        (fun p => p.peerId == pid)
      = [{ peerId := pid, llmCID := llamaCid }] := by
  constructor
  · simp [handleIdentify, hq, identifyRespond, hr]
  · have hresp : onResponse st pid (identifyRespond q)
        = { llmPeerMap := processResponseData st.llmPeerMap pid
              (.cons (.str llamaModelName) .nil),
            requests := delReq st.requests rid } := by
      simp [onResponse, identifyRespond, hr, hpend]
    rw [hresp]
    simp only []
    rw [processAppend st.llmPeerMap pid llamaModelName llamaCid cid_llama_lookup]
    rw [List.filter_append]
    have hnil : st.llmPeerMap.filter (fun p => p.peerId == pid) = [] := by
      rw [List.filter_eq_nil_iff]
      intro p hp
      simp [hfresh p hp]
    rw [hnil]
    simp

/-- Concrete identify handshake: fresh peer, pending request, one query,
one response, one directory record. -/
theorem c6_identify_handshake_witness :
    hasReq (ClientState.mk [] [([49], [47])]).requests [49] = true ∧
    (handleIdentify [{ event := .query, request_id := some [49], data := .str llamaCid }]
      = [{ event := .response, request_id := some [49],
           data := .arr (.cons (.str llamaModelName) .nil) }] ∧
    (onResponse (ClientState.mk [] [([49], [47])]) 7
        (identifyRespond
          { event := .query, request_id := some [49], data := .str llamaCid })).llmPeerMap.filter
        (fun p => p.peerId == 7)
      = [{ peerId := 7, llmCID := llamaCid }]) :=
  ⟨by decide,
    c6_identify_handshake [49] 7 (ClientState.mk [] [([49], [47])])
      { event := .query, request_id := some [49], data := .str llamaCid }
      rfl rfl (by decide) (by simp)⟩

/-- C7 counterexample: a stream delivering two query packets receives
two responses — the handler loop does not stop after answering the
first query. -/
theorem c7_two_queries_two_responses :
    handleIdentify
      [{ event := .query, request_id := some [49], data := .null },
       { event := .query, request_id := some [50], data := .null }]
      = [{ event := .response, request_id := some [49],
           data := .arr (.cons (.str llamaModelName) .nil) },
         { event := .response, request_id := some [50],
           data := .arr (.cons (.str llamaModelName) .nil) }] := rfl

/-- C7 amended: the identify handler answers every query packet received
on the stream, in order, echoing each request id, and ignores non-query
packets; it does not stop after the first request/response pair. -/
theorem c7_every_query_answered (msgs : List MimirPacket) :
    handleIdentify msgs
      = (msgs.filter (fun m => m.event == .query)).map identifyRespond := by
  induction msgs with
  | nil => rfl
  | cons m rest ih =>
    by_cases h : m.event = .query
    · have hb : (m.event == .query) = true := by simp [h]
      simp [handleIdentify, h, List.filter_cons, hb, ih]
    · have hb : (m.event == .query) = false := by simp [h]
      simp [handleIdentify, h, List.filter_cons, hb, ih]

/-- C8: a disconnect notification removes every record of the
disconnected peer and nothing else: no record for that peer remains, the
directory shrinks by exactly the peer's record count, and the records of
all other peers are unchanged (order included). -/
theorem c8_disconnect_removes_peer (st : List LLMPeer) (pid : Nat) :
    (onDisconnect st pid).filter (fun p => p.peerId == pid) = [] ∧
    (onDisconnect st pid).length
      = st.length - (st.filter (fun p => p.peerId == pid)).length ∧
    (onDisconnect st pid).filter (fun p => !(p.peerId == pid))
      = st.filter (fun p => !(p.peerId == pid)) := by
  induction st with
  | nil => exact ⟨rfl, rfl, rfl⟩
  | cons p ps ih =>
    obtain ⟨ih1, ih2, ih3⟩ := ih
    have hflen : (ps.filter (fun q => q.peerId == pid)).length ≤ ps.length :=
      List.length_filter_le _ _
    by_cases h : p.peerId = pid
    · have hb : (p.peerId == pid) = true := by simp [h]
      have hstep : onDisconnect (p :: ps) pid = onDisconnect ps pid := by
        simp [onDisconnect, h]
      have hfc : (p :: ps).filter (fun q => q.peerId == pid)
          = p :: ps.filter (fun q => q.peerId == pid) := by
        rw [List.filter_cons, if_pos hb]
      have hfc2 : (p :: ps).filter (fun q => !(q.peerId == pid))
          = ps.filter (fun q => !(q.peerId == pid)) := by
        rw [List.filter_cons, if_neg (by simp [hb])]
      refine ⟨?_, ?_, ?_⟩
      · rw [hstep]
        exact ih1
      · rw [hstep, hfc, List.length_cons, List.length_cons, ih2]
        omega
      · rw [hstep, hfc2]
        exact ih3
    · have hb : (p.peerId == pid) = false := by simp [h]
      have hstep : onDisconnect (p :: ps) pid = p :: onDisconnect ps pid := by
        simp [onDisconnect, h]
      have hfc : (p :: ps).filter (fun q => q.peerId == pid)
          = ps.filter (fun q => q.peerId == pid) := by
        rw [List.filter_cons, if_neg (by simp [hb])]
      have hfc2 : (p :: ps).filter (fun q => !(q.peerId == pid))
          = p :: ps.filter (fun q => !(q.peerId == pid)) := by
        rw [List.filter_cons, if_pos (by simp [hb])]
      refine ⟨?_, ?_, ?_⟩
      · rw [hstep, List.filter_cons, if_neg (by simp [hb])]
        exact ih1
      · rw [hstep, hfc]
        simp only [List.length_cons]
        rw [ih2]
        omega
      · rw [hstep, List.filter_cons, if_pos (by simp [hb]), hfc2, ih3]

/-- C10: the model actually used is the fixed constant llama3.2:latest
regardless of the request: a dialed peer always carries the catalog
content address for llama3.2:latest, and the request handleMessage
forwards to the backend has its model field overwritten with
llama3.2:latest (and streaming enabled) whatever the incoming data
contained. -/
theorem c10_model_pinned (st : List LLMPeer) (request data : JsonObj) (pid : Nat)
    (pkt : MimirPacket) (hd : sendMessage st request = .dialed pid pkt) :
    (∃ peer, peer ∈ st ∧ peer.peerId = pid ∧ peer.llmCID = llamaCid) ∧
    objLookup (buildLlmRequest data) keyModel = some (.str llamaModelName) ∧
    objLookup (buildLlmRequest data) keyStream = some (.bool true) := by
  refine ⟨?_, ?_, ?_⟩
  · unfold sendMessage at hd
    by_cases h0 : st.length = 0
    · rw [if_pos h0] at hd
      exact absurd hd (by simp)
    · rw [if_neg h0] at hd
      cases hh : (st.filter (fun p => p.llmCID == llamaCid)).head? with
      | none =>
        rw [hh] at hd
        exact absurd hd (by simp)
      | some peer =>
        rw [hh] at hd
        have hpid : peer.peerId = pid := by
          injection hd with ha hb
        have hmem := head?_mem hh
        have hcid := List.of_mem_filter hmem
        exact ⟨peer, List.mem_of_mem_filter hmem, hpid, by simpa using hcid⟩
  · unfold buildLlmRequest
    rw [objLookup_setVal_other _ keyModel keyStream _ (by decide)]
    exact objLookup_setVal_self _ keyModel _
  · exact objLookup_setVal_self _ keyStream _

/-- Concrete run of the pinned-model theorem: one llama peer is dialed,
and a request that tries to set its own model is overridden. -/
theorem c10_model_pinned_witness :
    sendMessage [{ peerId := 5, llmCID := llamaCid }] .nil
      = .dialed 5 { event := .message, request_id := none, data := .obj .nil } ∧
    ((∃ peer : LLMPeer, peer ∈ ([{ peerId := 5, llmCID := llamaCid }] : List LLMPeer)
        ∧ peer.peerId = 5 ∧ peer.llmCID = llamaCid) ∧
     objLookup (buildLlmRequest (.cons keyModel (.str [120]) .nil)) keyModel
       = some (.str llamaModelName) ∧
     objLookup (buildLlmRequest (.cons keyModel (.str [120]) .nil)) keyStream
       = some (.bool true)) :=
  ⟨rfl,
    c10_model_pinned [{ peerId := 5, llmCID := llamaCid }] .nil
      (.cons keyModel (.str [120]) .nil) 5
      { event := .message, request_id := none, data := .obj .nil } rfl⟩

end Mimir
